import Mathlib

/-!
Verification of the pixel-grid editing core of the AIpixelboard repository.

The definitions below are shallow embeddings of the TypeScript sources:
`src/utils/pixelUtils.ts` (geometry utilities, Bresenham line, flood fill),
`src/components/Canvas.tsx` (pencil/eraser stroke application) and the
top-level application component (frame-sequence operations).  JavaScript
numbers are modelled as `ℤ` (all values reaching these functions are
integers), JS arrays of color strings as `List String`, and the two
unbounded `while` loops are given explicit fuel that is proved sufficient.
-/

namespace PixelBoard

/-- Integer grid coordinate, mirroring interface `Point` of `types.ts`. -/
structure Point where
  x : ℤ
  y : ℤ
  deriving DecidableEq

/-- Canvas dimensions, mirroring interface `Size` of `types.ts`. -/
structure Size where
  width : ℤ
  height : ℤ
  deriving DecidableEq

/-- Embedding of `getIndex` from `src/utils/pixelUtils.ts`:
row-major linear index `y * width + x`. -/
def getIndex (x y width : ℤ) : ℤ := y * width + x

/-- Embedding of `getCoords` from `src/utils/pixelUtils.ts`.
JS `index % width` is the truncating remainder (`Int.tmod`) and
`Math.floor(index / width)` is floor division (`Int.fdiv`). -/
def getCoords (index width : ℤ) : Point :=
  ⟨Int.tmod index width, Int.fdiv index width⟩

/-- Reading `l[i]` on a JS array of strings: a `String` comes back exactly
when `0 ≤ i < l.length`; otherwise the access yields `undefined`,
modelled as `none`. -/
def readPx (l : List String) (i : ℤ) : Option String :=
  if 0 ≤ i then l[i.toNat]? else none

/-- Writing `l[i] = c` on a JS array.  The loops below only ever write at
indices that were successfully read, i.e. `0 ≤ i < l.length`; on that range
this is `List.set`. -/
def writePx (l : List String) (i : ℤ) (c : String) : List String :=
  if 0 ≤ i then l.set i.toNat c else l

/-- Loop body of `getLinePixels` from `src/utils/pixelUtils.ts`
(Bresenham's line algorithm).  `x1 y1 dx dy sx sy` are the constants of
the source loop; the `while (true)` is driven by explicit fuel. -/
def bresLoop (x1 y1 dx dy sx sy : ℤ) : ℕ → ℤ → ℤ → ℤ → List Point
  | 0, _, _, _ => []
  | fuel + 1, x0, y0, err =>
    ⟨x0, y0⟩ ::
      (if x0 = x1 ∧ y0 = y1 then []
       else
         bresLoop x1 y1 dx dy sx sy fuel
           (if 2 * err > -dy then x0 + sx else x0)
           (if 2 * err < dx then y0 + sy else y0)
           ((if 2 * err > -dy then err - dy else err) +
             (if 2 * err < dx then dx else 0)))

/-- Embedding of `getLinePixels (start, end)` from `src/utils/pixelUtils.ts`.
The fuel `dx + dy + 1` is proved sufficient below (each iteration moves
`x0` or `y0` one step closer to the endpoint). -/
def getLinePixels (ps pe : Point) : List Point :=
  let dx := |pe.x - ps.x|
  let dy := |pe.y - ps.y|
  let sx : ℤ := if ps.x < pe.x then 1 else -1
  let sy : ℤ := if ps.y < pe.y then 1 else -1
  bresLoop pe.x pe.y dx dy sx sy ((dx + dy).toNat + 1) ps.x ps.y (dx - dy)

/-- The four neighbour candidates pushed by `floodFill`, in source order
(right, left, down, up). -/
def nbrs (p : Point) : List Point :=
  [⟨p.x + 1, p.y⟩, ⟨p.x - 1, p.y⟩, ⟨p.x, p.y + 1⟩, ⟨p.x, p.y - 1⟩]

/-- In-bounds predicate used by the source's neighbour filter
(`n.x >= 0 && n.x < width && n.y >= 0 && n.y < height`). -/
def inB (w h : ℤ) (p : Point) : Prop :=
  0 ≤ p.x ∧ p.x < w ∧ 0 ≤ p.y ∧ p.y < h

instance (w h : ℤ) (p : Point) : Decidable (inB w h p) := by
  unfold inB; infer_instance

/-- Loop body of `floodFill` from `src/utils/pixelUtils.ts`.  The JS queue
is used as a stack (`queue.pop()` removes the last element); we model the
array so that its last element is the list head, hence the four filtered
neighbours are reversed before being prepended.  `visited` holds the
linear indices already popped. -/
def ffLoop (target fill : String) (w h : ℤ) :
    ℕ → List Point → List ℤ → List String → List String
  | 0, _, _, cur => cur
  | _ + 1, [], _, cur => cur
  | fuel + 1, p :: rest, visited, cur =>
    let idx := getIndex p.x p.y w
    if idx ∈ visited then
      ffLoop target fill w h fuel rest visited cur
    else if readPx cur idx = some target then
      ffLoop target fill w h fuel
        (((nbrs p).filter fun n => decide (inB w h n)).reverse ++ rest)
        (idx :: visited) (writePx cur idx fill)
    else
      ffLoop target fill w h fuel rest (idx :: visited) cur

/-- Embedding of `floodFill` from `src/utils/pixelUtils.ts`.  The three
guards are exactly the source's early returns; note that the bounds guard
is on the linear `startIndex`, not on the coordinates of `start`.  The
fuel `4 * pixels.length + 1` is proved sufficient below. -/
def floodFill (pixels : List String) (start : Point)
    (targetColor fillColor : String) (size : Size) : List String :=
  let startIndex := getIndex start.x start.y size.width
  if startIndex < 0 ∨ (pixels.length : ℤ) ≤ startIndex then pixels
  else if readPx pixels startIndex = some fillColor then pixels
  else if readPx pixels startIndex = some targetColor then
    ffLoop targetColor fillColor size.width size.height
      (4 * pixels.length + 1) [start] [] pixels
  else pixels

/-- Active tool, mirroring `ToolType` of `types.ts`. -/
inductive Tool
  | pencil | eraser | bucket | picker | move
  deriving DecidableEq

/-- Embedding of `drawPixel` from `src/components/Canvas.tsx`: out-of-bounds
points are returned unchanged; in bounds, pencil writes the active color and
eraser writes the sentinel string `transparent`; other tools leave the grid
pixel-for-pixel unchanged (the source returns a fresh copy). -/
def drawPixel (tool : Tool) (color : String) (size : Size) (p : Point)
    (cur : List String) : List String :=
  if p.x < 0 ∨ size.width ≤ p.x ∨ p.y < 0 ∨ size.height ≤ p.y then cur
  else
    match tool with
    | .pencil => writePx cur (getIndex p.x p.y size.width) color
    | .eraser => writePx cur (getIndex p.x p.y size.width) "transparent"
    | _ => cur

/-- Stroke-segment application from `handlePointerMove` in
`src/components/Canvas.tsx`: fold the single-pixel edit over every point of
the interpolated line from the last draw point to the current point. -/
def applyStroke (tool : Tool) (color : String) (size : Size)
    (lastDrawPoint point : Point) (pixels : List String) : List String :=
  (getLinePixels lastDrawPoint point).foldl
    (fun acc p => drawPixel tool color size p acc) pixels

/-- One animation frame, mirroring interface `Frame` of `types.ts`. -/
structure Frame where
  id : String
  pixels : List String
  deriving DecidableEq

/-- The frame-sequence part of the top-level application state
(`frames` and `currentFrameIdx` of the `App` component). -/
structure AppState where
  frames : List Frame
  currentFrameIdx : ℕ
  deriving DecidableEq

/-- Embedding of `createEmptyGrid` from the `App` component. -/
def createEmptyGrid (width height : ℤ) : List String :=
  List.replicate (width * height).toNat "transparent"

/-- Frame identifiers are built from the wall clock:
the template string used by the source is `frame-` followed by the value of
`Date.now()` (milliseconds, modelled as a `ℕ` argument `now`). -/
def frameId (now : ℕ) : String := "frame-" ++ toString now

/-- Splice of `newFrames.splice(currentFrameIdx + 1, 0, newFrame)` on a copy
of the frame list. -/
def insertAfterCurrent (s : AppState) (f : Frame) : List Frame :=
  s.frames.take (s.currentFrameIdx + 1) ++ f :: s.frames.drop (s.currentFrameIdx + 1)

/-- Embedding of `handleAddFrame` from the `App` component: a fresh
all-transparent frame is inserted right after the current one and becomes
current. -/
def handleAddFrame (size : Size) (now : ℕ) (s : AppState) : AppState :=
  { frames := insertAfterCurrent s ⟨frameId now, createEmptyGrid size.width size.height⟩
    currentFrameIdx := s.currentFrameIdx + 1 }

/-- Embedding of `handleDuplicateFrame` from the `App` component: the current
frame's pixels are copied (`[...current.pixels]`) into a new frame inserted
right after it, which becomes current. -/
def handleDuplicateFrame (now : ℕ) (s : AppState) : AppState :=
  { frames := insertAfterCurrent s ⟨frameId now, (s.frames.getD s.currentFrameIdx ⟨"", []⟩).pixels⟩
    currentFrameIdx := s.currentFrameIdx + 1 }

/-- Embedding of `handleDeleteFrame` from the `App` component: a no-op when
at most one frame remains; otherwise the current frame is removed and the
index becomes `Math.max(0, currentFrameIdx - 1)` (which is truncated `ℕ`
subtraction). -/
def handleDeleteFrame (s : AppState) : AppState :=
  if s.frames.length ≤ 1 then s
  else
    { frames := s.frames.eraseIdx s.currentFrameIdx
      currentFrameIdx := s.currentFrameIdx - 1 }

/-- One tick of the animation-loop effect of the `App` component:
`setCurrentFrameIdx(current => (current + 1) % frames.length)`. -/
def playbackTick (s : AppState) : AppState :=
  { s with currentFrameIdx := (s.currentFrameIdx + 1) % s.frames.length }

/-- The identifiers of the frames in order. -/
def frameIds (s : AppState) : List String := s.frames.map Frame.id

/-!
Heap model for the aliasing claim about frame duplication.  JS arrays are
mutable references; `{ id, pixels: [...current.pixels] }` in
`handleDuplicateFrame` allocates a fresh array whose contents are copied
from the current frame's array.  To make aliasing observable we give each
frame a buffer address into an explicit heap; duplication allocates the
next fresh address and copies the contents, and a pixel write mutates the
buffer of one frame in place.
-/

/-- A frame holding the address of its pixel buffer. -/
structure HFrame where
  id : String
  buf : ℕ
  deriving DecidableEq

/-- Application state with an explicit heap of pixel buffers.  `next` is
the next unallocated address; well-formed states only use addresses below
`next`. -/
structure HState where
  heap : ℕ → List String
  frames : List HFrame
  currentFrameIdx : ℕ
  next : ℕ

/-- Well-formedness: every frame's buffer address has been allocated. -/
def HWF (s : HState) : Prop := ∀ f ∈ s.frames, f.buf < s.next

/-- The pixel contents of the frame at position `j`. -/
def HState.framePixels (s : HState) (j : ℕ) : List String :=
  s.heap (s.frames.getD j ⟨"", 0⟩).buf

/-- Heap-level embedding of `handleDuplicateFrame`: the spread
`[...current.pixels]` becomes an allocation of the fresh address `next`
initialized with a copy of the current frame's buffer contents. -/
def hDuplicateFrame (s : HState) (now : ℕ) : HState :=
  let cur := s.frames.getD s.currentFrameIdx ⟨"", 0⟩
  { heap := fun a => if a = s.next then s.heap cur.buf else s.heap a
    frames := s.frames.take (s.currentFrameIdx + 1) ++
      ⟨frameId now, s.next⟩ :: s.frames.drop (s.currentFrameIdx + 1)
    currentFrameIdx := s.currentFrameIdx + 1
    next := s.next + 1 }

/-- A direct mutation `frames[j].pixels[k] = c`: writes through the buffer
address of the frame at position `j`. -/
def hWritePixel (s : HState) (j k : ℕ) (c : String) : HState :=
  let b := (s.frames.getD j ⟨"", 0⟩).buf
  { s with heap := fun a => if a = b then (s.heap b).set k c else s.heap a }

/-- Frame-sequence invariant stated by the spec: at least one frame, and the
current index within range. -/
def FrameInv (s : AppState) : Prop :=
  1 ≤ s.frames.length ∧ s.currentFrameIdx < s.frames.length

/-- Specification-side reachability for flood fill: the points 4-connected
to `start` (N/E/S/W steps) through in-bounds pixels whose color in the
original grid equals `target`, endpoints included. -/
inductive Reach (px : List String) (target : String) (w h : ℤ) (start : Point) :
    Point → Prop
  | base : inB w h start → readPx px (getIndex start.x start.y w) = some target →
      Reach px target w h start start
  | step {p q : Point} : Reach px target w h start p → q ∈ nbrs p → inB w h q →
      readPx px (getIndex q.x q.y w) = some target → Reach px target w h start q

/-- Adjacent points of a rasterized line: distinct and 8-connected. -/
def bresStep (a b : Point) : Prop :=
  a ≠ b ∧ |b.x - a.x| ≤ 1 ∧ |b.y - a.y| ≤ 1

/-!  Basic facts about indices and pixel reads/writes.  -/

theorem inB_index_nonneg {w h : ℤ} {p : Point} (hp : inB w h p) :
    0 ≤ getIndex p.x p.y w := by
  obtain ⟨hx0, hxw, hy0, _⟩ := hp
  have hw : 0 < w := lt_of_le_of_lt hx0 hxw
  unfold getIndex
  have : 0 ≤ p.y * w := mul_nonneg hy0 (le_of_lt hw)
  linarith

theorem inB_index_lt {w h : ℤ} {p : Point} (hp : inB w h p) :
    getIndex p.x p.y w < w * h := by
  obtain ⟨hx0, hxw, hy0, hyh⟩ := hp
  have hw : 0 < w := lt_of_le_of_lt hx0 hxw
  unfold getIndex
  have h1 : p.y * w ≤ (h - 1) * w :=
    mul_le_mul_of_nonneg_right (by omega) (le_of_lt hw)
  nlinarith

theorem getIndex_inj {w h : ℤ} {p q : Point} (hp : inB w h p) (hq : inB w h q)
    (hpq : getIndex p.x p.y w = getIndex q.x q.y w) : p = q := by
  obtain ⟨hx0, hxw, hy0, hyh⟩ := hp
  obtain ⟨hx0', hxw', hy0', hyh'⟩ := hq
  have hw : 0 < w := lt_of_le_of_lt hx0 hxw
  unfold getIndex at hpq
  have hy : p.y = q.y := by
    rcases lt_trichotomy p.y q.y with hlt | heq | hgt
    · have h1 : (p.y + 1) * w ≤ q.y * w :=
        mul_le_mul_of_nonneg_right (by omega) (le_of_lt hw)
      nlinarith
    · exact heq
    · have h1 : (q.y + 1) * w ≤ p.y * w :=
        mul_le_mul_of_nonneg_right (by omega) (le_of_lt hw)
      nlinarith
  have hx : p.x = q.x := by rw [hy] at hpq; exact add_left_cancel hpq
  cases p; cases q; simp_all

theorem writePx_length (l : List String) (i : ℤ) (c : String) :
    (writePx l i c).length = l.length := by
  unfold writePx; split <;> simp

theorem readPx_writePx_self {l : List String} {i : ℤ} (h0 : 0 ≤ i)
    (hl : i.toNat < l.length) (c : String) :
    readPx (writePx l i c) i = some c := by
  unfold readPx writePx
  simp only [if_pos h0]
  rw [List.getElem?_set]
  simp [hl]

theorem readPx_writePx_ne {l : List String} {i j : ℤ} (h0 : 0 ≤ i)
    (hij : i ≠ j) (c : String) :
    readPx (writePx l i c) j = readPx l j := by
  unfold readPx writePx
  simp only [if_pos h0]
  by_cases hj : 0 ≤ j
  · simp only [if_pos hj]
    rw [List.getElem?_set_ne]
    omega
  · simp [hj]

theorem readPx_bound {l : List String} {i : ℤ} {c : String}
    (h : readPx l i = some c) : 0 ≤ i ∧ i.toNat < l.length := by
  unfold readPx at h
  by_cases h0 : 0 ≤ i
  · refine ⟨h0, ?_⟩
    simp only [if_pos h0] at h
    exact (List.getElem?_eq_some_iff.mp h).1
  · simp [h0] at h

/-- C7: on valid inputs the row-major index and the coordinate decomposition
are exact inverses: decoding the index of `(x, y)` gives back `(x, y)`, and
re-encoding the decoded coordinates of a valid linear index gives back the
index. -/
theorem index_coords_inverse (w h x y : ℤ) (hw : 0 < w) (hx0 : 0 ≤ x)
    (hxw : x < w) (hy : 0 ≤ y) :
    getCoords (getIndex x y w) w = ⟨x, y⟩ ∧
    ∀ i : ℤ, 0 ≤ i → i < w * h →
      getIndex (getCoords i w).x (getCoords i w).y w = i := by
  constructor
  · have hidx : (0 : ℤ) ≤ y * w + x := by
      have : 0 ≤ y * w := mul_nonneg hy (le_of_lt hw)
      linarith
    simp only [getCoords, getIndex, Point.mk.injEq]
    constructor
    · rw [Int.tmod_eq_emod hidx (le_of_lt hw), add_comm, ← mul_comm w y,
        Int.add_mul_emod_self_left, Int.emod_eq_of_lt hx0 hxw]
    · rw [Int.fdiv_eq_ediv _ (le_of_lt hw), add_comm, ← mul_comm w y,
        Int.add_mul_ediv_left x y (ne_of_gt hw), Int.ediv_eq_zero_of_lt hx0 hxw,
        zero_add]
  · intro i hi0 _
    simp only [getCoords, getIndex]
    rw [Int.tmod_eq_emod hi0 (le_of_lt hw), Int.fdiv_eq_ediv _ (le_of_lt hw),
      mul_comm]
    exact Int.ediv_add_emod i w

/-- Witness for C7 at the concrete input `width = 3`, `height = 2`,
`(x, y) = (2, 1)` and linear index `5`. -/
theorem index_coords_inverse_witness :
    getCoords (getIndex 2 1 3) 3 = ⟨2, 1⟩ ∧
    getIndex (getCoords 5 3).x (getCoords 5 3).y 3 = 5 :=
  ⟨(index_coords_inverse 3 2 2 1 (by decide) (by decide) (by decide) (by decide)).1,
   (index_coords_inverse 3 2 2 1 (by decide) (by decide) (by decide)
      (by decide)).2 5 (by decide) (by decide)⟩

/-- C2 counterexample: the source's bounds guard checks the linear
`startIndex`, not the coordinates, so the out-of-bounds start `(2, 0)` on a
2-by-2 grid (x = 2 is not below width = 2, linear index 2 is within the
4-element array) is NOT a no-op: the whole grid gets recolored. -/
theorem floodFill_oob_counterexample :
    floodFill ["a", "a", "a", "a"] ⟨2, 0⟩ "a" "b" ⟨2, 2⟩ = ["b", "b", "b", "b"] ∧
    floodFill ["a", "a", "a", "a"] ⟨2, 0⟩ "a" "b" ⟨2, 2⟩ ≠ ["a", "a", "a", "a"] := by
  decide

/-- C2 amended: floodFill returns the input grid unchanged when (a) the
linear index `y * width + x` of the start point is negative or at least the
grid length (rather than when the start coordinates are out of bounds),
(b) the color stored at start equals the fill color, or (c) the color
stored at start differs from the target color argument. -/
theorem floodFill_noop_spec (px : List String) (start : Point)
    (target fill : String) (sz : Size) :
    (getIndex start.x start.y sz.width < 0 ∨
        (px.length : ℤ) ≤ getIndex start.x start.y sz.width →
      floodFill px start target fill sz = px) ∧
    (readPx px (getIndex start.x start.y sz.width) = some fill →
      floodFill px start target fill sz = px) ∧
    (readPx px (getIndex start.x start.y sz.width) ≠ some target →
      floodFill px start target fill sz = px) := by
  refine ⟨fun hoob => ?_, fun hfill => ?_, fun htar => ?_⟩ <;>
    · unfold floodFill
      dsimp only
      split_ifs <;> first | rfl | tauto

/-- Witness for C2 (amended) at concrete inputs exercising all three
no-op guards. -/
theorem floodFill_noop_spec_witness :
    floodFill ["a", "b"] ⟨0, 3⟩ "a" "c" ⟨2, 1⟩ = ["a", "b"] ∧
    floodFill ["a", "b"] ⟨0, 0⟩ "x" "a" ⟨2, 1⟩ = ["a", "b"] ∧
    floodFill ["a", "b"] ⟨0, 0⟩ "z" "c" ⟨2, 1⟩ = ["a", "b"] :=
  ⟨(floodFill_noop_spec ["a", "b"] ⟨0, 3⟩ "a" "c" ⟨2, 1⟩).1 (by decide),
   (floodFill_noop_spec ["a", "b"] ⟨0, 0⟩ "x" "a" ⟨2, 1⟩).2.1 (by decide),
   (floodFill_noop_spec ["a", "b"] ⟨0, 0⟩ "z" "c" ⟨2, 1⟩).2.2 (by decide)⟩

theorem length_insertAfterCurrent (s : AppState) (f : Frame)
    (h : s.currentFrameIdx < s.frames.length) :
    (insertAfterCurrent s f).length = s.frames.length + 1 := by
  unfold insertAfterCurrent
  simp only [List.length_append, List.length_cons, List.length_take,
    List.length_drop]
  omega

/-- C5: the frame-sequence invariant (length at least 1, current index in
range) is preserved by adding a frame, duplicating a frame, deleting a frame
and one playback tick; moreover deleting the last remaining frame leaves the
state unchanged. -/
theorem frameSequence_invariant (sz : Size) (now : ℕ) (s : AppState)
    (hs : FrameInv s) :
    FrameInv (handleAddFrame sz now s) ∧ FrameInv (handleDuplicateFrame now s) ∧
    FrameInv (handleDeleteFrame s) ∧ FrameInv (playbackTick s) ∧
    (s.frames.length = 1 → handleDeleteFrame s = s) := by
  obtain ⟨h1, h2⟩ := hs
  refine ⟨?_, ?_, ?_, ?_, ?_⟩
  · constructor <;>
      simp only [handleAddFrame, length_insertAfterCurrent _ _ h2] <;> omega
  · constructor <;>
      simp only [handleDuplicateFrame, length_insertAfterCurrent _ _ h2] <;> omega
  · unfold handleDeleteFrame FrameInv
    split_ifs with hone
    · exact ⟨h1, h2⟩
    · simp only [List.length_eraseIdx, if_pos h2]
      omega
  · unfold playbackTick FrameInv
    refine ⟨h1, ?_⟩
    exact Nat.mod_lt _ (by omega)
  · intro hone
    unfold handleDeleteFrame
    rw [if_pos (by omega)]

/-- Witness for C5 at a concrete two-frame state. -/
theorem frameSequence_invariant_witness :
    FrameInv (handleAddFrame ⟨2, 2⟩ 9 ⟨[⟨"frame-0", []⟩, ⟨"frame-1", []⟩], 1⟩) ∧
    handleDeleteFrame ⟨[⟨"frame-0", []⟩], 0⟩ = ⟨[⟨"frame-0", []⟩], 0⟩ :=
  ⟨(frameSequence_invariant ⟨2, 2⟩ 9 ⟨[⟨"frame-0", []⟩, ⟨"frame-1", []⟩], 1⟩
      ⟨by decide, by decide⟩).1,
   (frameSequence_invariant ⟨2, 2⟩ 9 ⟨[⟨"frame-0", []⟩], 0⟩
      ⟨by decide, by decide⟩).2.2.2.2 rfl⟩

/-- C9 counterexample: frame ids come from the wall clock
(`Date.now()` milliseconds), so two frames created in the same millisecond
(here both with clock value 7) receive the SAME id, violating the claimed
uniqueness. -/
theorem frameId_collision_counterexample :
    frameIds (handleAddFrame ⟨2, 2⟩ 7
        (handleAddFrame ⟨2, 2⟩ 7 ⟨[⟨"frame-0", []⟩], 0⟩)) =
      ["frame-0", "frame-7", "frame-7"] ∧
    ¬ (frameIds (handleAddFrame ⟨2, 2⟩ 7
        (handleAddFrame ⟨2, 2⟩ 7 ⟨[⟨"frame-0", []⟩], 0⟩))).Nodup := by
  constructor
  · rfl
  · decide

theorem frameIds_insertAfterCurrent (s : AppState) (f : Frame) :
    (insertAfterCurrent s f).map Frame.id =
      (frameIds s).take (s.currentFrameIdx + 1) ++
        f.id :: (frameIds s).drop (s.currentFrameIdx + 1) := by
  unfold insertAfterCurrent frameIds
  rw [List.map_append, List.map_take, List.map_cons, List.map_drop]

theorem nodup_insert_fresh {l : List String} {a : String} {n : ℕ}
    (hfresh : a ∉ l) (hnodup : l.Nodup) :
    (l.take n ++ a :: l.drop n).Nodup := by
  have hperm : (l.take n ++ a :: l.drop n).Perm (a :: (l.take n ++ l.drop n)) :=
    List.perm_middle
  rw [hperm.nodup_iff, List.take_append_drop, List.nodup_cons]
  exact ⟨hfresh, hnodup⟩

/-- C9 amended: a frame created by addFrame or duplicateFrame receives the
id built from the wall-clock value at creation; it is distinct from all
existing ids PROVIDED that id is not already present (in particular two
creations within the same millisecond collide, see the counterexample);
and ids of existing frames are never changed by any of the operations. -/
theorem frameId_fresh_nodup (sz : Size) (now : ℕ) (s : AppState)
    (hfresh : frameId now ∉ frameIds s) (hnodup : (frameIds s).Nodup) :
    (frameIds (handleAddFrame sz now s)).Nodup ∧
    (frameIds (handleDuplicateFrame now s)).Nodup ∧
    frameIds (handleAddFrame sz now s) =
      (frameIds s).take (s.currentFrameIdx + 1) ++
        frameId now :: (frameIds s).drop (s.currentFrameIdx + 1) ∧
    frameIds (handleDuplicateFrame now s) =
      (frameIds s).take (s.currentFrameIdx + 1) ++
        frameId now :: (frameIds s).drop (s.currentFrameIdx + 1) ∧
    frameIds (handleDeleteFrame s) =
      (if s.frames.length ≤ 1 then frameIds s
       else (frameIds s).eraseIdx s.currentFrameIdx) ∧
    frameIds (playbackTick s) = frameIds s := by
  have hadd : frameIds (handleAddFrame sz now s) =
      (frameIds s).take (s.currentFrameIdx + 1) ++
        frameId now :: (frameIds s).drop (s.currentFrameIdx + 1) :=
    frameIds_insertAfterCurrent s _
  have hdup : frameIds (handleDuplicateFrame now s) =
      (frameIds s).take (s.currentFrameIdx + 1) ++
        frameId now :: (frameIds s).drop (s.currentFrameIdx + 1) :=
    frameIds_insertAfterCurrent s _
  refine ⟨?_, ?_, hadd, hdup, ?_, rfl⟩
  · rw [hadd]; exact nodup_insert_fresh hfresh hnodup
  · rw [hdup]; exact nodup_insert_fresh hfresh hnodup
  · unfold handleDeleteFrame
    split_ifs with hone
    · rfl
    · unfold frameIds
      simp only [List.eraseIdx_eq_take_drop_succ, List.map_append,
        List.map_take, List.map_drop]

/-- Witness for C9 (amended): a creation with a clock value whose id is not
yet present keeps the ids pairwise distinct. -/
theorem frameId_fresh_nodup_witness :
    (frameIds (handleAddFrame ⟨2, 2⟩ 7 ⟨[⟨"frame-0", []⟩], 0⟩)).Nodup :=
  (frameId_fresh_nodup ⟨2, 2⟩ 7 ⟨[⟨"frame-0", []⟩], 0⟩
    (by decide) (by decide)).1

theorem spliced_getD_self {l : List HFrame} {n : ℕ} (f : HFrame)
    (h : n < l.length) :
    (l.take (n + 1) ++ f :: l.drop (n + 1)).getD n ⟨"", 0⟩ = l.getD n ⟨"", 0⟩ := by
  have hlen : (l.take (n + 1)).length = n + 1 := by
    rw [List.length_take]; omega
  rw [List.getD_eq_getElem?_getD, List.getD_eq_getElem?_getD,
    List.getElem?_append, if_pos (by omega : n < (l.take (n + 1)).length),
    List.getElem?_take, if_pos (by omega : n < n + 1)]

theorem spliced_getD_new {l : List HFrame} {n : ℕ} (f : HFrame)
    (h : n < l.length) :
    (l.take (n + 1) ++ f :: l.drop (n + 1)).getD (n + 1) ⟨"", 0⟩ = f := by
  have hlen : (l.take (n + 1)).length = n + 1 := by
    rw [List.length_take]; omega
  rw [List.getD_eq_getElem?_getD, List.getElem?_append_right hlen.le, hlen]
  simp

/-- C6: duplicating the current frame inserts, right after it, a frame whose
pixel buffer contents equal the current frame's contents at the moment of
duplication, allocated at a fresh address; the new current index is the old
one plus one; the original frame's pixels are untouched by the duplication;
and because the buffer is an independent copy, mutating any pixel of the
duplicate afterwards leaves the original frame's pixels unchanged, and
vice versa. -/
theorem duplicateFrame_independent (s : HState) (now : ℕ) (hwf : HWF s)
    (hc : s.currentFrameIdx < s.frames.length) :
    (hDuplicateFrame s now).framePixels (s.currentFrameIdx + 1) =
      s.framePixels s.currentFrameIdx ∧
    (hDuplicateFrame s now).currentFrameIdx = s.currentFrameIdx + 1 ∧
    (hDuplicateFrame s now).framePixels s.currentFrameIdx =
      s.framePixels s.currentFrameIdx ∧
    (∀ k c, (hWritePixel (hDuplicateFrame s now) (s.currentFrameIdx + 1) k c).framePixels
        s.currentFrameIdx = (hDuplicateFrame s now).framePixels s.currentFrameIdx) ∧
    (∀ k c, (hWritePixel (hDuplicateFrame s now) s.currentFrameIdx k c).framePixels
        (s.currentFrameIdx + 1) =
      (hDuplicateFrame s now).framePixels (s.currentFrameIdx + 1)) := by
  have hcurmem : s.frames.getD s.currentFrameIdx ⟨"", 0⟩ ∈ s.frames := by
    rw [List.getD_eq_getElem _ _ hc]
    exact List.getElem_mem hc
  have hbuflt : (s.frames.getD s.currentFrameIdx ⟨"", 0⟩).buf < s.next :=
    hwf _ hcurmem
  have hframes : (hDuplicateFrame s now).frames =
      s.frames.take (s.currentFrameIdx + 1) ++
        (⟨frameId now, s.next⟩ : HFrame) :: s.frames.drop (s.currentFrameIdx + 1) := rfl
  have hgetnew : (hDuplicateFrame s now).frames.getD (s.currentFrameIdx + 1) ⟨"", 0⟩ =
      ⟨frameId now, s.next⟩ := by
    rw [hframes]; exact spliced_getD_new _ hc
  have hgetold : (hDuplicateFrame s now).frames.getD s.currentFrameIdx ⟨"", 0⟩ =
      s.frames.getD s.currentFrameIdx ⟨"", 0⟩ := by
    rw [hframes]; exact spliced_getD_self _ hc
  have hheapdup : ∀ a : ℕ, (hDuplicateFrame s now).heap a =
      if a = s.next then s.heap (s.frames.getD s.currentFrameIdx ⟨"", 0⟩).buf
      else s.heap a := fun a => rfl
  refine ⟨?_, rfl, ?_, ?_, ?_⟩
  · unfold HState.framePixels
    rw [hgetnew, hheapdup]
    simp
  · unfold HState.framePixels
    rw [hgetold, hheapdup]
    rw [if_neg (by omega)]
  · intro k c
    unfold hWritePixel HState.framePixels
    dsimp only
    rw [hgetold, hgetnew]
    rw [if_neg (by omega : ¬ (s.frames.getD s.currentFrameIdx ⟨"", 0⟩).buf = s.next)]
  · intro k c
    unfold hWritePixel HState.framePixels
    dsimp only
    rw [hgetold, hgetnew]
    rw [if_neg (by omega : ¬ s.next = (s.frames.getD s.currentFrameIdx ⟨"", 0⟩).buf)]

/-- Witness for C6 at a concrete one-frame state holding the buffer
`["a", "b"]` at address 0. -/
theorem duplicateFrame_independent_witness :
    (hDuplicateFrame ⟨fun a => if a = 0 then ["a", "b"] else [], [⟨"frame-0", 0⟩], 0, 1⟩ 7).framePixels 1 =
      HState.framePixels ⟨fun a => if a = 0 then ["a", "b"] else [], [⟨"frame-0", 0⟩], 0, 1⟩ 0 ∧
    ∀ k c, (hWritePixel (hDuplicateFrame ⟨fun a => if a = 0 then ["a", "b"] else [], [⟨"frame-0", 0⟩], 0, 1⟩ 7) 1 k c).framePixels 0 =
      (hDuplicateFrame ⟨fun a => if a = 0 then ["a", "b"] else [], [⟨"frame-0", 0⟩], 0, 1⟩ 7).framePixels 0 :=
  ⟨(duplicateFrame_independent ⟨fun a => if a = 0 then ["a", "b"] else [], [⟨"frame-0", 0⟩], 0, 1⟩ 7
      (by intro f hf; simp at hf; rw [hf]; decide) (by decide)).1,
   (duplicateFrame_independent ⟨fun a => if a = 0 then ["a", "b"] else [], [⟨"frame-0", 0⟩], 0, 1⟩ 7
      (by intro f hf; simp at hf; rw [hf]; decide) (by decide)).2.2.2.1⟩

theorem drawPixel_length (tool : Tool) (color : String) (sz : Size) (p : Point)
    (cur : List String) : (drawPixel tool color sz p cur).length = cur.length := by
  unfold drawPixel
  split_ifs
  · rfl
  · cases tool <;> simp [writePx_length]

theorem drawPixel_oob (tool : Tool) (color : String) (sz : Size) (p : Point)
    (cur : List String) (hp : ¬ inB sz.width sz.height p) :
    drawPixel tool color sz p cur = cur := by
  unfold drawPixel
  rw [if_pos]
  unfold inB at hp
  omega

theorem foldl_drawPixel_readPx (tool : Tool) (color val : String) (sz : Size)
    (hval : (tool = .pencil ∧ val = color) ∨ (tool = .eraser ∧ val = "transparent"))
    (pts : List Point) :
    ∀ (cur : List String), (cur.length : ℤ) = sz.width * sz.height →
      ∀ q : Point, inB sz.width sz.height q →
        readPx (pts.foldl (fun acc p => drawPixel tool color sz p acc) cur)
            (getIndex q.x q.y sz.width) =
          if q ∈ pts then some val else readPx cur (getIndex q.x q.y sz.width) := by
  induction pts with
  | nil => intro cur hlen q hq; simp
  | cons p pts ih =>
    intro cur hlen q hq
    rw [List.foldl_cons]
    have hlen' : ((drawPixel tool color sz p cur).length : ℤ) =
        sz.width * sz.height := by rw [drawPixel_length]; exact hlen
    rw [ih _ hlen' q hq]
    by_cases hmem : q ∈ pts
    · rw [if_pos hmem, if_pos (List.mem_cons_of_mem _ hmem)]
    · rw [if_neg hmem]
      by_cases hpq : p = q
      · subst hpq
        rw [if_pos (List.mem_cons_self _ _)]
        have hnn : 0 ≤ getIndex p.x p.y sz.width := inB_index_nonneg hq
        have hbd : (getIndex p.x p.y sz.width).toNat < cur.length := by
          rw [Int.toNat_lt hnn, hlen]
          exact inB_index_lt hq
        unfold drawPixel
        rw [if_neg (by obtain ⟨a, b, c, d⟩ := hq; omega)]
        rcases hval with ⟨ht, hv⟩ | ⟨ht, hv⟩ <;> subst ht
        · rw [hv]; exact readPx_writePx_self hnn hbd color
        · rw [hv]; exact readPx_writePx_self hnn hbd "transparent"
      · rw [if_neg (by
          intro hc
          rcases List.mem_cons.mp hc with hc | hc
          · exact hpq hc.symm
          · exact hmem hc)]
        unfold drawPixel
        split_ifs with hoob
        · rfl
        · have hpin : inB sz.width sz.height p := by unfold inB; omega
          have hne : getIndex p.x p.y sz.width ≠ getIndex q.x q.y sz.width :=
            fun hc => hpq (getIndex_inj hpin hq hc)
          cases tool with
          | pencil => exact readPx_writePx_ne (inB_index_nonneg hpin) hne _
          | eraser => exact readPx_writePx_ne (inB_index_nonneg hpin) hne _
          | bucket => rfl
          | picker => rfl
          | move => rfl

/-- C4: a pencil or eraser stroke segment folds the single-pixel edit over
the interpolated line; every in-bounds point of the line ends up holding the
active color (pencil) or the transparent sentinel (eraser), every pixel
whose point is not on the line is unchanged, out-of-bounds points are
silently skipped, and on a 4x4 all-transparent grid a pencil stroke from
(0,0) to (3,3) with color #ff0000 paints exactly the four diagonal cells. -/
theorem applyStroke_spec (tool : Tool) (color val : String) (sz : Size)
    (lastDrawPoint point : Point) (px : List String)
    (hlen : (px.length : ℤ) = sz.width * sz.height)
    (hval : (tool = .pencil ∧ val = color) ∨ (tool = .eraser ∧ val = "transparent")) :
    (∀ q : Point, inB sz.width sz.height q →
      readPx (applyStroke tool color sz lastDrawPoint point px)
          (getIndex q.x q.y sz.width) =
        if q ∈ getLinePixels lastDrawPoint point then some val
        else readPx px (getIndex q.x q.y sz.width)) ∧
    (∀ (p : Point) (acc : List String), ¬ inB sz.width sz.height p →
      drawPixel tool color sz p acc = acc) ∧
    applyStroke .pencil "#ff0000" ⟨4, 4⟩ ⟨0, 0⟩ ⟨3, 3⟩
        (List.replicate 16 "transparent") =
      ["#ff0000", "transparent", "transparent", "transparent",
       "transparent", "#ff0000", "transparent", "transparent",
       "transparent", "transparent", "#ff0000", "transparent",
       "transparent", "transparent", "transparent", "#ff0000"] := by
  refine ⟨?_, ?_, by decide⟩
  · intro q hq
    exact foldl_drawPixel_readPx tool color val sz hval _ px hlen q hq
  · intro p acc hp
    exact drawPixel_oob tool color sz p acc hp

/-- Witness for C4: the diagonal cell (1,1) of the concrete 4x4 stroke is on
the line and reads back the pencil color. -/
theorem applyStroke_spec_witness :
    readPx (applyStroke .pencil "#ff0000" ⟨4, 4⟩ ⟨0, 0⟩ ⟨3, 3⟩
        (List.replicate 16 "transparent")) (getIndex 1 1 4) =
      if (⟨1, 1⟩ : Point) ∈ getLinePixels ⟨0, 0⟩ ⟨3, 3⟩ then some "#ff0000"
      else readPx (List.replicate 16 "transparent") (getIndex 1 1 4) :=
  (applyStroke_spec .pencil "#ff0000" "#ff0000" ⟨4, 4⟩ ⟨0, 0⟩ ⟨3, 3⟩
      (List.replicate 16 "transparent") (by decide)
      (Or.inl ⟨rfl, rfl⟩)).1 ⟨1, 1⟩ (by decide)

theorem ffLoop_effect (target fill : String) (w h : ℤ) :
    ∀ (fuel : ℕ) (Q : List Point) (V : List ℤ) (cur px : List String),
      cur.length = px.length →
      (∀ i : ℕ, cur[i]? = px[i]? ∨ (px[i]? = some target ∧ cur[i]? = some fill)) →
      (ffLoop target fill w h fuel Q V cur).length = px.length ∧
      ∀ i : ℕ, (ffLoop target fill w h fuel Q V cur)[i]? = px[i]? ∨
        (px[i]? = some target ∧
          (ffLoop target fill w h fuel Q V cur)[i]? = some fill) := by
  intro fuel
  induction fuel with
  | zero =>
    intro Q V cur px hlen hinv
    exact ⟨hlen, hinv⟩
  | succ fuel ih =>
    intro Q V cur px hlen hinv
    match Q with
    | [] => exact ⟨hlen, hinv⟩
    | p :: rest =>
      simp only [ffLoop]
      split_ifs with hv ht
      · exact ih rest V cur px hlen hinv
      · have hb := readPx_bound ht
        have hcuridx : cur[(getIndex p.x p.y w).toNat]? = some target := by
          have h2 := ht
          unfold readPx at h2
          rwa [if_pos hb.1] at h2
        have hlen' : (writePx cur (getIndex p.x p.y w) fill).length = px.length := by
          rw [writePx_length]; exact hlen
        have hinv' : ∀ i : ℕ,
            (writePx cur (getIndex p.x p.y w) fill)[i]? = px[i]? ∨
            (px[i]? = some target ∧
              (writePx cur (getIndex p.x p.y w) fill)[i]? = some fill) := by
          intro i
          unfold writePx
          rw [if_pos hb.1]
          rcases eq_or_ne (getIndex p.x p.y w).toNat i with hi | hi
          · subst hi
            right
            refine ⟨?_, ?_⟩
            · rcases hinv (getIndex p.x p.y w).toNat with hcase | hcase
              · rw [← hcase]; exact hcuridx
              · exact hcase.1
            · rw [List.getElem?_set]
              simp [hb.2]
          · rw [List.getElem?_set_ne hi]
            exact hinv i
        exact ih _ _ _ px hlen' hinv'
      · exact ih rest _ cur px hlen hinv

/-- C10: on the non-no-op branch (start's linear index within the array,
color at start different from the fill color and equal to the target color)
floodFill preserves the grid length, and every output pixel either equals
the corresponding input pixel or is the fill color written over a pixel
whose input value was exactly the target color; no pixel of another color
is ever rewritten. -/
theorem floodFill_frame_effect (px : List String) (start : Point)
    (target fill : String) (sz : Size)
    (h0 : ¬ (getIndex start.x start.y sz.width < 0 ∨
      (px.length : ℤ) ≤ getIndex start.x start.y sz.width))
    (h1 : readPx px (getIndex start.x start.y sz.width) ≠ some fill)
    (h2 : readPx px (getIndex start.x start.y sz.width) = some target) :
    (floodFill px start target fill sz).length = px.length ∧
    ∀ i : ℕ, (floodFill px start target fill sz)[i]? = px[i]? ∨
      (px[i]? = some target ∧ (floodFill px start target fill sz)[i]? = some fill) := by
  unfold floodFill
  dsimp only
  rw [if_neg h0, if_neg h1, if_pos h2]
  exact ffLoop_effect target fill sz.width sz.height _ [start] [] px px rfl
    (fun i => Or.inl rfl)

/-- Witness for C10 at a concrete 2x2 grid where one pixel is not the
target color. -/
theorem floodFill_frame_effect_witness :
    (floodFill ["a", "c", "a", "a"] ⟨0, 0⟩ "a" "b" ⟨2, 2⟩).length = 4 ∧
    ((floodFill ["a", "c", "a", "a"] ⟨0, 0⟩ "a" "b" ⟨2, 2⟩)[1]? =
        ["a", "c", "a", "a"][1]? ∨
      (["a", "c", "a", "a"][1]? = some "a" ∧
        (floodFill ["a", "c", "a", "a"] ⟨0, 0⟩ "a" "b" ⟨2, 2⟩)[1]? = some "b")) :=
  ⟨(floodFill_frame_effect ["a", "c", "a", "a"] ⟨0, 0⟩ "a" "b" ⟨2, 2⟩
      (by decide) (by decide) (by decide)).1,
   (floodFill_frame_effect ["a", "c", "a", "a"] ⟨0, 0⟩ "a" "b" ⟨2, 2⟩
      (by decide) (by decide) (by decide)).2 1⟩

/-!
Arithmetic core of the Bresenham verification.  Throughout, `u` and `v`
denote the remaining axis distances to the endpoint, and the loop error
satisfies the exact identity `err = dx - dy + u * dy - v * dx`, with the
deviation bound `|2 * (u * dy - v * dx)| ≤ max dx dy` as loop invariant.
-/

theorem bres_xstop (dx dy u v err : ℤ) (hu : u = 0) (hdx : 0 ≤ dx)
    (hv : 1 ≤ v) (hvdy : v ≤ dy)
    (herr : err = dx - dy + u * dy - v * dx) : ¬ (2 * err > -dy) := by
  intro hX
  subst hu
  nlinarith [mul_nonneg hdx (by omega : (0 : ℤ) ≤ v - 1)]

theorem bres_ystop (dx dy u v err : ℤ) (hv : v = 0) (hdy : 0 ≤ dy)
    (hu : 1 ≤ u) (hudx : u ≤ dx)
    (herr : err = dx - dy + u * dy - v * dx) : ¬ (2 * err < dx) := by
  intro hY
  subst hv
  nlinarith [mul_nonneg hdy (by omega : (0 : ℤ) ≤ u - 1)]

theorem bres_xgt (dx dy u v err : ℤ) (hvu : v < u) (hv0 : 0 ≤ v)
    (hvdy : v ≤ dy) (hudx : u ≤ dx)
    (herr : err = dx - dy + u * dy - v * dx)
    (hKlo : -(max dx dy) ≤ 2 * (u * dy - v * dx))
    (hnbx : ¬ (2 * err > -dy)) : False := by
  push_neg at hnbx
  rcases le_total dy dx with hc | hc
  · rw [max_eq_left hc] at hKlo
    have heq : dx = dy := le_antisymm (by linarith) hc
    have h2 : u * dy = u * dx := by rw [heq]
    have h1 : 1 * dx ≤ (u - v) * dx :=
      mul_le_mul_of_nonneg_right (by omega) (by omega)
    linarith
  · nlinarith [mul_nonneg hv0 (by omega : (0 : ℤ) ≤ dy - dx),
      mul_le_mul_of_nonneg_right (by omega : v + 1 ≤ u) (by omega : (0 : ℤ) ≤ dy)]

theorem bres_ygt (dx dy u v err : ℤ) (huv : u < v) (hu0 : 0 ≤ u)
    (hudx : u ≤ dx) (hvdy : v ≤ dy)
    (herr : err = dx - dy + u * dy - v * dx)
    (hKhi : 2 * (u * dy - v * dx) ≤ max dx dy)
    (hnby : ¬ (2 * err < dx)) : False := by
  push_neg at hnby
  rcases le_total dx dy with hc | hc
  · rw [max_eq_right hc] at hKhi
    have heq : dy = dx := le_antisymm (by linarith) hc
    have h2 : v * dx = v * dy := by rw [heq]
    have h1 : (u - v) * dy ≤ (-1) * dy :=
      mul_le_mul_of_nonneg_right (by omega) (by omega)
    linarith
  · nlinarith [mul_nonneg hu0 (by omega : (0 : ℤ) ≤ dx - dy),
      mul_le_mul_of_nonneg_right (by omega : u + 1 ≤ v) (by omega : (0 : ℤ) ≤ dx)]

theorem bres_diag (dx dy u v err : ℤ) (huv : u = v) (hu1 : 1 ≤ u)
    (hudx : u ≤ dx) (hvdy : v ≤ dy)
    (herr : err = dx - dy + u * dy - v * dx)
    (hKlo : -(max dx dy) ≤ 2 * (u * dy - v * dx))
    (hKhi : 2 * (u * dy - v * dx) ≤ max dx dy) :
    2 * err > -dy ∧ 2 * err < dx := by
  subst huv
  constructor
  · rcases lt_trichotomy dx dy with hc | hc | hc
    · nlinarith [mul_le_mul_of_nonneg_right (by omega : (1 : ℤ) ≤ u)
        (by omega : (0 : ℤ) ≤ dy - dx)]
    · subst hc
      nlinarith
    · rw [max_eq_left (le_of_lt hc)] at hKlo
      linarith
  · rcases lt_trichotomy dy dx with hc | hc | hc
    · nlinarith [mul_le_mul_of_nonneg_right (by omega : (1 : ℤ) ≤ u)
        (by omega : (0 : ℤ) ≤ dx - dy)]
    · rw [hc] at herr
      nlinarith
    · rw [max_eq_right (le_of_lt hc)] at hKhi
      linarith

theorem toNat_max_pred (u v : ℤ) (hu : 1 ≤ u) (hv : 1 ≤ v) :
    (max (u - 1) (v - 1)).toNat + 1 = (max u v).toNat := by omega

theorem toNat_max_pred_left (u v : ℤ) (hu : 1 ≤ u) (hvu : v < u) :
    (max (u - 1) v).toNat + 1 = (max u v).toNat := by omega

theorem toNat_max_pred_right (u v : ℤ) (hv : 1 ≤ v) (huv : u < v) :
    (max u (v - 1)).toNat + 1 = (max u v).toNat := by omega

theorem toNat_lt_fuel (u v u' v' : ℤ) (fuel : ℕ) (h1 : u' + v' < u + v)
    (h0 : 0 ≤ u' + v')
    (hf : (u + v).toNat < fuel + 1) : (u' + v').toNat < fuel := by omega

theorem bres_K_both (dx dy u v err : ℤ)
    (herr : err = dx - dy + u * dy - v * dx)
    (hbx : 2 * err > -dy) (hby : 2 * err < dx) :
    -(max dx dy) ≤ 2 * ((u - 1) * dy - (v - 1) * dx) ∧
    2 * ((u - 1) * dy - (v - 1) * dx) ≤ max dx dy :=
  ⟨by nlinarith [le_max_right dx dy], by nlinarith [le_max_left dx dy]⟩

theorem bres_K_xonly (dx dy u v err : ℤ) (hdy : 0 ≤ dy)
    (herr : err = dx - dy + u * dy - v * dx)
    (hKhi : 2 * (u * dy - v * dx) ≤ max dx dy)
    (hnby : ¬ (2 * err < dx)) :
    -(max dx dy) ≤ 2 * ((u - 1) * dy - v * dx) ∧
    2 * ((u - 1) * dy - v * dx) ≤ max dx dy := by
  push_neg at hnby
  exact ⟨by nlinarith [le_max_left dx dy], by nlinarith [le_max_left dx dy]⟩

theorem bres_K_yonly (dx dy u v err : ℤ) (hdx : 0 ≤ dx)
    (herr : err = dx - dy + u * dy - v * dx)
    (hKlo : -(max dx dy) ≤ 2 * (u * dy - v * dx))
    (hnbx : ¬ (2 * err > -dy)) :
    -(max dx dy) ≤ 2 * (u * dy - (v - 1) * dx) ∧
    2 * (u * dy - (v - 1) * dx) ≤ max dx dy := by
  push_neg at hnbx
  exact ⟨by nlinarith [le_max_right dx dy], by nlinarith [le_max_right dx dy]⟩

theorem bresLoop_spec (x1 y1 dx dy sx sy : ℤ)
    (hsx : sx = 1 ∨ sx = -1) (hsy : sy = 1 ∨ sy = -1) :
    ∀ (fuel : ℕ) (x0 y0 err : ℤ),
      0 ≤ sx * (x1 - x0) → sx * (x1 - x0) ≤ dx →
      0 ≤ sy * (y1 - y0) → sy * (y1 - y0) ≤ dy →
      err = dx - dy + (sx * (x1 - x0)) * dy - (sy * (y1 - y0)) * dx →
      -(max dx dy) ≤ 2 * ((sx * (x1 - x0)) * dy - (sy * (y1 - y0)) * dx) →
      2 * ((sx * (x1 - x0)) * dy - (sy * (y1 - y0)) * dx) ≤ max dx dy →
      (sx * (x1 - x0) + sy * (y1 - y0)).toNat < fuel →
      (bresLoop x1 y1 dx dy sx sy fuel x0 y0 err).length =
        (max (sx * (x1 - x0)) (sy * (y1 - y0))).toNat + 1 ∧
      (bresLoop x1 y1 dx dy sx sy fuel x0 y0 err).head? = some ⟨x0, y0⟩ ∧
      (bresLoop x1 y1 dx dy sx sy fuel x0 y0 err).getLast? = some ⟨x1, y1⟩ ∧
      List.Chain' bresStep (bresLoop x1 y1 dx dy sx sy fuel x0 y0 err) := by
  have hsx0 : sx ≠ 0 := by rcases hsx with h | h <;> rw [h] <;> decide
  have hsy0 : sy ≠ 0 := by rcases hsy with h | h <;> rw [h] <;> decide
  intro fuel
  induction fuel with
  | zero =>
    intro x0 y0 err _ _ _ _ _ _ _ hfuel
    exact absurd hfuel (Nat.not_lt_zero _)
  | succ fuel ih =>
    intro x0 y0 err hu0 hudx hv0 hvdy herr hKlo hKhi hfuel
    by_cases hend : x0 = x1 ∧ y0 = y1
    · obtain ⟨hx, hy⟩ := hend
      have hu : sx * (x1 - x0) = 0 := by rw [hx]; ring
      have hv : sy * (y1 - y0) = 0 := by rw [hy]; ring
      simp only [bresLoop, if_pos (⟨hx, hy⟩ : x0 = x1 ∧ y0 = y1)]
      refine ⟨?_, rfl, ?_, ?_⟩
      · rw [hu, hv]; rfl
      · simp [hx, hy]
      · simp
    · simp only [bresLoop, if_neg hend]
      have hux : sx * (x1 - x0) = 0 → x0 = x1 := by
        intro hz
        rcases mul_eq_zero.mp hz with hz | hz
        · exact absurd hz hsx0
        · omega
      have hvy : sy * (y1 - y0) = 0 → y0 = y1 := by
        intro hz
        rcases mul_eq_zero.mp hz with hz | hz
        · exact absurd hz hsy0
        · omega
      have huv1 : 1 ≤ sx * (x1 - x0) + sy * (y1 - y0) := by
        by_contra hlt
        push_neg at hlt
        have hu : sx * (x1 - x0) = 0 := by linarith
        have hv : sy * (y1 - y0) = 0 := by linarith
        exact hend ⟨hux hu, hvy hv⟩
      have hu'eq : sx * (x1 - (x0 + sx)) = sx * (x1 - x0) - 1 := by
        rcases hsx with h | h <;> rw [h] <;> ring
      have hv'eq : sy * (y1 - (y0 + sy)) = sy * (y1 - y0) - 1 := by
        rcases hsy with h | h <;> rw [h] <;> ring
      have hdx0 : 0 ≤ dx := le_trans hu0 hudx
      have hdy0 : 0 ≤ dy := le_trans hv0 hvdy
      by_cases hbx : 2 * err > -dy
      · by_cases hby : 2 * err < dx
        · -- both axes step
          have hu1 : 1 ≤ sx * (x1 - x0) := by
            rcases eq_or_lt_of_le hu0 with h | h
            · exact absurd hbx (bres_xstop dx dy _ _ err h.symm hdx0
                (by linarith) hvdy herr)
            · linarith
          have hv1 : 1 ≤ sy * (y1 - y0) := by
            rcases eq_or_lt_of_le hv0 with h | h
            · exact absurd hby (bres_ystop dx dy _ _ err h.symm hdy0
                (by linarith) hudx herr)
            · linarith
          have hK' := bres_K_both dx dy _ _ err herr hbx hby
          obtain ⟨ihlen, ihhead, ihlast, ihchain⟩ :=
            ih (x0 + sx) (y0 + sy) (err - dy + dx)
              (by rw [hu'eq]; linarith) (by rw [hu'eq]; linarith)
              (by rw [hv'eq]; linarith) (by rw [hv'eq]; linarith)
              (by rw [hu'eq, hv'eq]; linear_combination herr)
              (by rw [hu'eq, hv'eq]; exact hK'.1)
              (by rw [hu'eq, hv'eq]; exact hK'.2)
              (by
                rw [hu'eq, hv'eq]
                exact toNat_lt_fuel _ _ _ _ fuel (by linarith) (by linarith) hfuel)
          rw [hu'eq, hv'eq] at ihlen
          simp only [if_pos hbx, if_pos hby]
          refine ⟨?_, rfl, ?_, ?_⟩
          · rw [List.length_cons, ihlen, toNat_max_pred _ _ hu1 hv1]
          · rw [List.getLast?_cons, ihlast]
            simp
          · rw [List.chain'_cons']
            refine ⟨?_, ihchain⟩
            intro z hz
            rw [ihhead] at hz
            simp only [Option.mem_def, Option.some.injEq] at hz
            subst hz
            refine ⟨?_, ?_, ?_⟩
            · intro hc
              rw [Point.mk.injEq] at hc
              have := hc.1
              omega
            · have : x0 + sx - x0 = sx := by ring
              simp only [this]
              rcases hsx with h | h <;> rw [h] <;> decide
            · have : y0 + sy - y0 = sy := by ring
              simp only [this]
              rcases hsy with h | h <;> rw [h] <;> decide
        · -- only the x axis steps
          have hu1 : 1 ≤ sx * (x1 - x0) := by
            rcases eq_or_lt_of_le hu0 with h | h
            · exact absurd hbx (bres_xstop dx dy _ _ err h.symm hdx0
                (by linarith) hvdy herr)
            · linarith
          have hvu : sy * (y1 - y0) < sx * (x1 - x0) := by
            rcases lt_trichotomy (sy * (y1 - y0)) (sx * (x1 - x0)) with h | h | h
            · exact h
            · exact absurd ((bres_diag dx dy _ _ err h.symm (by linarith)
                hudx hvdy herr hKlo hKhi).2) hby
            · exact absurd (bres_ygt dx dy _ _ err h hu0 hudx hvdy herr hKhi hby)
                not_false
          have hK' := bres_K_xonly dx dy _ _ err hdy0 herr hKhi hby
          obtain ⟨ihlen, ihhead, ihlast, ihchain⟩ :=
            ih (x0 + sx) y0 (err - dy + 0)
              (by rw [hu'eq]; linarith) (by rw [hu'eq]; linarith)
              hv0 hvdy
              (by rw [hu'eq]; linear_combination herr)
              (by rw [hu'eq]; exact hK'.1)
              (by rw [hu'eq]; exact hK'.2)
              (by
                rw [hu'eq]
                exact toNat_lt_fuel _ _ _ _ fuel (by linarith) (by linarith) hfuel)
          rw [hu'eq] at ihlen
          simp only [if_pos hbx, if_neg hby]
          refine ⟨?_, rfl, ?_, ?_⟩
          · rw [List.length_cons, ihlen, toNat_max_pred_left _ _ hu1 hvu]
          · rw [List.getLast?_cons, ihlast]
            simp
          · rw [List.chain'_cons']
            refine ⟨?_, ihchain⟩
            intro z hz
            rw [ihhead] at hz
            simp only [Option.mem_def, Option.some.injEq] at hz
            subst hz
            refine ⟨?_, ?_, ?_⟩
            · intro hc
              rw [Point.mk.injEq] at hc
              have := hc.1
              omega
            · have : x0 + sx - x0 = sx := by ring
              simp only [this]
              rcases hsx with h | h <;> rw [h] <;> decide
            · simp
      · -- only the y axis steps
        have hby : 2 * err < dx := by
          rcases (by by_contra hno; push_neg at hno; linarith :
            2 * err > -dy ∨ 2 * err < dx) with h | h
          · exact absurd h hbx
          · exact h
        have hv1 : 1 ≤ sy * (y1 - y0) := by
          rcases eq_or_lt_of_le hv0 with h | h
          · exact absurd hby (bres_ystop dx dy _ _ err h.symm hdy0
              (by linarith) hudx herr)
          · linarith
        have huv : sx * (x1 - x0) < sy * (y1 - y0) := by
          rcases lt_trichotomy (sx * (x1 - x0)) (sy * (y1 - y0)) with h | h | h
          · exact h
          · exact absurd ((bres_diag dx dy _ _ err h (by linarith)
              hudx hvdy herr hKlo hKhi).1) hbx
          · exact absurd (bres_xgt dx dy _ _ err h hv0 hvdy hudx herr hKlo hbx)
              not_false
        have hK' := bres_K_yonly dx dy _ _ err hdx0 herr hKlo hbx
        obtain ⟨ihlen, ihhead, ihlast, ihchain⟩ :=
          ih x0 (y0 + sy) (err + dx)
            hu0 hudx
            (by rw [hv'eq]; linarith) (by rw [hv'eq]; linarith)
            (by rw [hv'eq]; linear_combination herr)
            (by rw [hv'eq]; exact hK'.1)
            (by rw [hv'eq]; exact hK'.2)
            (by
              rw [hv'eq]
              exact toNat_lt_fuel _ _ _ _ fuel (by linarith) (by linarith) hfuel)
        rw [hv'eq] at ihlen
        simp only [if_neg hbx, if_pos hby]
        refine ⟨?_, rfl, ?_, ?_⟩
        · rw [List.length_cons, ihlen, toNat_max_pred_right _ _ hv1 huv]
        · rw [List.getLast?_cons, ihlast]
          simp
        · rw [List.chain'_cons']
          refine ⟨?_, ihchain⟩
          intro z hz
          rw [ihhead] at hz
          simp only [Option.mem_def, Option.some.injEq] at hz
          subst hz
          refine ⟨?_, ?_, ?_⟩
          · intro hc
            rw [Point.mk.injEq] at hc
            have := hc.2
            omega
          · simp
          · have : y0 + sy - y0 = sy := by ring
            simp only [this]
            rcases hsy with h | h <;> rw [h] <;> decide

theorem abs_eq_sign_mul (a b : ℤ) :
    (if a < b then (1 : ℤ) else -1) * (b - a) = |b - a| := by
  split_ifs with h
  · rw [one_mul, abs_of_nonneg (by omega)]
  · rw [abs_of_nonpos (by omega)]; ring

theorem getLinePixels_core (ps pe : Point) :
    (getLinePixels ps pe).head? = some ps ∧
    (getLinePixels ps pe).getLast? = some pe ∧
    (getLinePixels ps pe).length = (max |pe.x - ps.x| |pe.y - ps.y|).toNat + 1 ∧
    List.Chain' bresStep (getLinePixels ps pe) := by
  have hu := abs_eq_sign_mul ps.x pe.x
  have hv := abs_eq_sign_mul ps.y pe.y
  have habsx : (0 : ℤ) ≤ |pe.x - ps.x| := abs_nonneg _
  have habsy : (0 : ℤ) ≤ |pe.y - ps.y| := abs_nonneg _
  obtain ⟨hlen, hhead, hlast, hchain⟩ :=
    bresLoop_spec pe.x pe.y |pe.x - ps.x| |pe.y - ps.y|
      (if ps.x < pe.x then 1 else -1) (if ps.y < pe.y then 1 else -1)
      (by split_ifs <;> simp) (by split_ifs <;> simp)
      ((|pe.x - ps.x| + |pe.y - ps.y|).toNat + 1) ps.x ps.y
      (|pe.x - ps.x| - |pe.y - ps.y|)
      (by rw [hu]; exact habsx) (by rw [hu]) (by rw [hv]; exact habsy) (by rw [hv])
      (by rw [hu, hv]; ring)
      (by
        rw [hu, hv]
        have : |pe.x - ps.x| * |pe.y - ps.y| - |pe.y - ps.y| * |pe.x - ps.x| = 0 := by
          ring
        rw [this]
        have hmx : (0 : ℤ) ≤ max |pe.x - ps.x| |pe.y - ps.y| :=
          le_trans habsx (le_max_left _ _)
        omega)
      (by
        rw [hu, hv]
        have : |pe.x - ps.x| * |pe.y - ps.y| - |pe.y - ps.y| * |pe.x - ps.x| = 0 := by
          ring
        rw [this]
        have hmx : (0 : ℤ) ≤ max |pe.x - ps.x| |pe.y - ps.y| :=
          le_trans habsx (le_max_left _ _)
        omega)
      (by rw [hu, hv]; omega)
  rw [hu, hv] at hlen
  exact ⟨hhead, hlast, hlen, hchain⟩

/-- C3: the Bresenham rasterizer always begins at the start point, ends at
the end point, produces exactly `max(|dx|, |dy|) + 1` points, has no two
equal adjacent points and every consecutive pair 8-connected; a degenerate
line is the singleton of its point; and the line from (0,0) to (3,0) is
exactly the four unit-step points. -/
theorem getLinePixels_spec :
    (∀ ps pe : Point,
      (getLinePixels ps pe).head? = some ps ∧
      (getLinePixels ps pe).getLast? = some pe ∧
      (getLinePixels ps pe).length = (max |pe.x - ps.x| |pe.y - ps.y|).toNat + 1 ∧
      List.Chain' bresStep (getLinePixels ps pe)) ∧
    (∀ p : Point, getLinePixels p p = [p]) ∧
    getLinePixels ⟨0, 0⟩ ⟨3, 0⟩ = [⟨0, 0⟩, ⟨1, 0⟩, ⟨2, 0⟩, ⟨3, 0⟩] := by
  refine ⟨getLinePixels_core, ?_, by decide⟩
  intro p
  obtain ⟨hh, _, hlen, _⟩ := getLinePixels_core p p
  have hlen1 : (getLinePixels p p).length = 1 := by
    rw [hlen]; simp
  cases hq : getLinePixels p p with
  | nil => rw [hq] at hh; simp at hh
  | cons a l =>
    rw [hq] at hh hlen1
    simp only [List.head?_cons, Option.some.injEq] at hh
    simp only [List.length_cons, Nat.add_left_eq_self] at hlen1
    rw [List.length_eq_zero] at hlen1
    rw [hh, hlen1]

/-- C8 counterexample: reversing the endpoints does NOT visit the same set
of points: the line from (0,0) to (2,1) passes through (1,0), while the
line from (2,1) to (0,0) does not (it passes through (1,1) instead). -/
theorem getLinePixels_symm_counterexample :
    (⟨1, 0⟩ : Point) ∈ getLinePixels ⟨0, 0⟩ ⟨2, 1⟩ ∧
    (⟨1, 0⟩ : Point) ∉ getLinePixels ⟨2, 1⟩ ⟨0, 0⟩ := by decide

/-- C8 amended: reversing start and end yields a line of the same length
(both are `max(|dx|, |dy|) + 1`) containing both endpoints, but not
necessarily the same set of interior points. -/
theorem getLinePixels_symm_length (ps pe : Point) :
    (getLinePixels pe ps).length = (getLinePixels ps pe).length ∧
    ps ∈ getLinePixels ps pe ∧ pe ∈ getLinePixels ps pe ∧
    ps ∈ getLinePixels pe ps ∧ pe ∈ getLinePixels pe ps := by
  obtain ⟨hh1, hl1, hlen1, _⟩ := getLinePixels_core ps pe
  obtain ⟨hh2, hl2, hlen2, _⟩ := getLinePixels_core pe ps
  refine ⟨?_, ?_, ?_, ?_, ?_⟩
  · rw [hlen1, hlen2, abs_sub_comm ps.x pe.x, abs_sub_comm ps.y pe.y,
      max_comm]
  · exact List.mem_of_mem_head? (by rw [hh1]; rfl)
  · exact List.mem_of_mem_getLast? (by rw [hl1]; rfl)
  · exact List.mem_of_mem_getLast? (by rw [hl2]; rfl)
  · exact List.mem_of_mem_head? (by rw [hh2]; rfl)

/-!
Full functional correctness of `floodFill`: the filled region is exactly
the set of points 4-connected-reachable from the start through
target-colored pixels.  The worklist loop is verified through a bundle of
invariants: queue members are in-bounds and adjacent to the reached region
(or the start), visited indices are the indices of such points and are
pairwise distinct, and the working grid holds the fill color exactly at
visited target-colored pixels.
-/

theorem Reach.props {px : List String} {target : String} {w h : ℤ}
    {start p : Point} (hr : Reach px target w h start p) :
    inB w h p ∧ readPx px (getIndex p.x p.y w) = some target := by
  cases hr with
  | base h1 h2 => exact ⟨h1, h2⟩
  | step _ _ h1 h2 => exact ⟨h1, h2⟩

theorem Reach_of_origin {px : List String} {target : String} {w h : ℤ}
    {start q : Point}
    (hq : q = start ∨ ∃ p, Reach px target w h start p ∧ q ∈ nbrs p)
    (hin : inB w h q)
    (hcol : readPx px (getIndex q.x q.y w) = some target) :
    Reach px target w h start q := by
  rcases hq with rfl | ⟨p, hp, hmem⟩
  · exact Reach.base hin hcol
  · exact Reach.step hp hmem hin hcol

theorem visited_length_le (V : List ℤ) (n : ℕ) (hnd : V.Nodup)
    (hbd : ∀ i ∈ V, 0 ≤ i ∧ i < (n : ℤ)) : V.length ≤ n := by
  have h1 : V.length = V.toFinset.card := (List.toFinset_card_of_nodup hnd).symm
  have h2 : V.toFinset ⊆ Finset.Icc (0 : ℤ) ((n : ℤ) - 1) := by
    intro i hi
    rw [List.mem_toFinset] at hi
    have := hbd i hi
    rw [Finset.mem_Icc]
    omega
  have h3 := Finset.card_le_card h2
  rw [Int.card_Icc] at h3
  omega

theorem ffLoop_done (px : List String) (target fill : String) (w h : ℤ)
    (start : Point) (V : List ℤ) (cur : List String)
    (hvv : ∀ i ∈ V, ∃ p, inB w h p ∧ getIndex p.x p.y w = i ∧
      (p = start ∨ ∃ p', Reach px target w h start p' ∧ p ∈ nbrs p'))
    (hcur : ∀ p : Point, inB w h p →
      readPx cur (getIndex p.x p.y w) =
        if getIndex p.x p.y w ∈ V ∧ readPx px (getIndex p.x p.y w) = some target
        then some fill else readPx px (getIndex p.x p.y w))
    (hc0 : getIndex start.x start.y w ∈ V)
    (hC : ∀ p q : Point, inB w h p → getIndex p.x p.y w ∈ V →
      readPx px (getIndex p.x p.y w) = some target → q ∈ nbrs p → inB w h q →
      getIndex q.x q.y w ∈ V) :
    ∀ p : Point, inB w h p →
      ((Reach px target w h start p →
        readPx cur (getIndex p.x p.y w) = some fill) ∧
       (¬ Reach px target w h start p →
        readPx cur (getIndex p.x p.y w) = readPx px (getIndex p.x p.y w))) := by
  have hcomp : ∀ p', Reach px target w h start p' → getIndex p'.x p'.y w ∈ V := by
    intro p' hr
    induction hr with
    | base h1 h2 => exact hc0
    | @step pp qq hr' hmem hin hcol ihp =>
      obtain ⟨hin', hcol'⟩ := Reach.props hr'
      exact hC pp qq hin' ihp hcol' hmem hin
  intro p hp
  constructor
  · intro hr
    rw [hcur p hp, if_pos ⟨hcomp p hr, (Reach.props hr).2⟩]
  · intro hnr
    rw [hcur p hp, if_neg ?_]
    intro hcond
    apply hnr
    obtain ⟨pv, hpv, hpi, horig⟩ := hvv _ hcond.1
    have hpp : pv = p := getIndex_inj hpv hp hpi
    subst hpp
    exact Reach_of_origin horig hpv hcond.2

theorem ffLoop_reach (px : List String) (target fill : String) (w h : ℤ)
    (start : Point)
    (hlen : (px.length : ℤ) = w * h) :
    ∀ (fuel : ℕ) (Q : List Point) (V : List ℤ) (cur : List String),
      cur.length = px.length →
      (∀ q ∈ Q, inB w h q ∧
        (q = start ∨ ∃ p, Reach px target w h start p ∧ q ∈ nbrs p)) →
      (∀ i ∈ V, ∃ p, inB w h p ∧ getIndex p.x p.y w = i ∧
        (p = start ∨ ∃ p', Reach px target w h start p' ∧ p ∈ nbrs p')) →
      V.Nodup →
      (∀ p : Point, inB w h p →
        readPx cur (getIndex p.x p.y w) =
          if getIndex p.x p.y w ∈ V ∧ readPx px (getIndex p.x p.y w) = some target
          then some fill else readPx px (getIndex p.x p.y w)) →
      (getIndex start.x start.y w ∈ V ∨ start ∈ Q) →
      (∀ p q : Point, inB w h p → getIndex p.x p.y w ∈ V →
        readPx px (getIndex p.x p.y w) = some target → q ∈ nbrs p → inB w h q →
        (getIndex q.x q.y w ∈ V ∨ q ∈ Q)) →
      4 * px.length + Q.length ≤ 4 * V.length + fuel →
      ∀ p : Point, inB w h p →
        ((Reach px target w h start p →
          readPx (ffLoop target fill w h fuel Q V cur) (getIndex p.x p.y w) =
            some fill) ∧
         (¬ Reach px target w h start p →
          readPx (ffLoop target fill w h fuel Q V cur) (getIndex p.x p.y w) =
            readPx px (getIndex p.x p.y w))) := by
  intro fuel
  induction fuel with
  | zero =>
    intro Q V cur hclen hq hvv hnd hcur hc0 hC hmeas
    cases Q with
    | nil =>
      simp only [ffLoop]
      exact ffLoop_done px target fill w h start V cur hvv hcur
        (hc0.resolve_right (List.not_mem_nil _))
        (fun p q h1 h2 h3 h4 h5 =>
          (hC p q h1 h2 h3 h4 h5).resolve_right (List.not_mem_nil _))
    | cons q rest =>
      exfalso
      have hvb : ∀ i ∈ V, 0 ≤ i ∧ i < (px.length : ℤ) := by
        intro i hi
        obtain ⟨pv, hpv, hpi, _⟩ := hvv i hi
        refine ⟨?_, ?_⟩
        · rw [← hpi]; exact inB_index_nonneg hpv
        · rw [← hpi, hlen]; exact inB_index_lt hpv
      have hVle := visited_length_le V px.length hnd hvb
      simp only [List.length_cons] at hmeas
      omega
  | succ fuel ih =>
    intro Q V cur hclen hq hvv hnd hcur hc0 hC hmeas
    cases Q with
    | nil =>
      simp only [ffLoop]
      exact ffLoop_done px target fill w h start V cur hvv hcur
        (hc0.resolve_right (List.not_mem_nil _))
        (fun p q h1 h2 h3 h4 h5 =>
          (hC p q h1 h2 h3 h4 h5).resolve_right (List.not_mem_nil _))
    | cons p0 rest =>
      obtain ⟨hp0in, hp0orig⟩ := hq p0 (List.mem_cons_self _ _)
      simp only [ffLoop]
      split_ifs with hv ht
      · -- the popped index was already visited
        refine ih rest V cur hclen
          (fun q hq' => hq q (List.mem_cons_of_mem _ hq')) hvv hnd hcur ?_ ?_ ?_
        · rcases hc0 with h | h
          · exact Or.inl h
          · rcases List.mem_cons.mp h with h | h
            · subst h; exact Or.inl hv
            · exact Or.inr h
        · intro a b h1 h2 h3 h4 h5
          rcases hC a b h1 h2 h3 h4 h5 with h | h
          · exact Or.inl h
          · rcases List.mem_cons.mp h with h | h
            · subst h; exact Or.inl hv
            · exact Or.inr h
        · simp only [List.length_cons] at hmeas
          omega
      · -- fresh index holding the target color: fill it and push neighbours
        have hb := readPx_bound ht
        have hpx0 : readPx px (getIndex p0.x p0.y w) = some target := by
          have h1 := hcur p0 hp0in
          rw [if_neg (fun hc => hv hc.1)] at h1
          rw [← h1]; exact ht
        have hreach0 : Reach px target w h start p0 :=
          Reach_of_origin hp0orig hp0in hpx0
        have hmemf : ∀ n : Point,
            n ∈ ((nbrs p0).filter fun n => decide (inB w h n)).reverse ↔
              (n ∈ nbrs p0 ∧ inB w h n) := by
          intro n
          rw [List.mem_reverse, List.mem_filter, decide_eq_true_eq]
        refine ih _ _ _ (by rw [writePx_length]; exact hclen) ?_ ?_ ?_ ?_ ?_ ?_ ?_
        · -- queue members in bounds and rooted in the reached region
          intro q hq'
          rcases List.mem_append.mp hq' with hq' | hq'
          · obtain ⟨hmem, hbnd⟩ := (hmemf q).mp hq'
            exact ⟨hbnd, Or.inr ⟨p0, hreach0, hmem⟩⟩
          · exact hq q (List.mem_cons_of_mem _ hq')
        · -- visited indices come from in-bounds rooted points
          intro i hi
          rcases List.mem_cons.mp hi with hi | hi
          · exact ⟨p0, hp0in, hi.symm, hp0orig⟩
          · exact hvv i hi
        · exact List.nodup_cons.mpr ⟨hv, hnd⟩
        · -- the working grid after the write
          intro p hp
          by_cases heq : getIndex p.x p.y w = getIndex p0.x p0.y w
          · have hpp : p = p0 := getIndex_inj hp hp0in heq
            subst hpp
            rw [readPx_writePx_self (inB_index_nonneg hp) hb.2 fill,
              if_pos ⟨List.mem_cons_self _ _, hpx0⟩]
          · rw [readPx_writePx_ne (inB_index_nonneg hp0in)
              (fun hc => heq hc.symm) fill, hcur p hp]
            by_cases hcond : getIndex p.x p.y w ∈ V ∧
                readPx px (getIndex p.x p.y w) = some target
            · rw [if_pos hcond, if_pos ⟨List.mem_cons_of_mem _ hcond.1, hcond.2⟩]
            · rw [if_neg hcond, if_neg ?_]
              intro hc
              apply hcond
              refine ⟨?_, hc.2⟩
              rcases List.mem_cons.mp hc.1 with h | h
              · exact absurd h heq
              · exact h
        · -- the start is visited or still queued
          rcases hc0 with h | h
          · exact Or.inl (List.mem_cons_of_mem _ h)
          · rcases List.mem_cons.mp h with h | h
            · subst h; exact Or.inl (List.mem_cons_self _ _)
            · exact Or.inr (List.mem_append.mpr (Or.inr h))
        · -- neighbours of visited target pixels are visited or queued
          intro a b h1 h2 h3 h4 h5
          rcases List.mem_cons.mp h2 with h2 | h2
          · have hap : a = p0 := getIndex_inj h1 hp0in h2
            subst hap
            exact Or.inr (List.mem_append.mpr (Or.inl ((hmemf b).mpr ⟨h4, h5⟩)))
          · rcases hC a b h1 h2 h3 h4 h5 with h | h
            · exact Or.inl (List.mem_cons_of_mem _ h)
            · rcases List.mem_cons.mp h with h | h
              · subst h
                exact Or.inl (List.mem_cons_self _ _)
              · exact Or.inr (List.mem_append.mpr (Or.inr h))
        · -- the measure decreases
          have hlf : (((nbrs p0).filter fun n => decide (inB w h n)).reverse).length ≤ 4 := by
            rw [List.length_reverse]
            exact le_trans (List.length_filter_le _ _) (by rfl)
          simp only [List.length_cons] at hmeas
          simp only [List.length_append, List.length_cons]
          omega
      · -- fresh index not holding the target color: just mark it visited
        have hpxne : ¬ readPx px (getIndex p0.x p0.y w) = some target := by
          have h1 := hcur p0 hp0in
          rw [if_neg (fun hc => hv hc.1)] at h1
          rw [← h1]; exact ht
        refine ih rest _ cur hclen
          (fun q hq' => hq q (List.mem_cons_of_mem _ hq')) ?_
          (List.nodup_cons.mpr ⟨hv, hnd⟩) ?_ ?_ ?_ ?_
        · intro i hi
          rcases List.mem_cons.mp hi with hi | hi
          · exact ⟨p0, hp0in, hi.symm, hp0orig⟩
          · exact hvv i hi
        · intro p hp
          rw [hcur p hp]
          by_cases heq : getIndex p.x p.y w = getIndex p0.x p0.y w
          · have hpp : p = p0 := getIndex_inj hp hp0in heq
            subst hpp
            rw [if_neg (fun hc => hpxne hc.2), if_neg (fun hc => hpxne hc.2)]
          · by_cases hcond : getIndex p.x p.y w ∈ V ∧
                readPx px (getIndex p.x p.y w) = some target
            · rw [if_pos hcond, if_pos ⟨List.mem_cons_of_mem _ hcond.1, hcond.2⟩]
            · rw [if_neg hcond, if_neg ?_]
              intro hc
              apply hcond
              refine ⟨?_, hc.2⟩
              rcases List.mem_cons.mp hc.1 with h | h
              · exact absurd h heq
              · exact h
        · rcases hc0 with h | h
          · exact Or.inl (List.mem_cons_of_mem _ h)
          · rcases List.mem_cons.mp h with h | h
            · subst h; exact Or.inl (List.mem_cons_self _ _)
            · exact Or.inr h
        · intro a b h1 h2 h3 h4 h5
          rcases List.mem_cons.mp h2 with h2 | h2
          · have hap : a = p0 := getIndex_inj h1 hp0in h2
            subst hap
            exact absurd h3 hpxne
          · rcases hC a b h1 h2 h3 h4 h5 with h | h
            · exact Or.inl (List.mem_cons_of_mem _ h)
            · rcases List.mem_cons.mp h with h | h
              · subst h
                exact Or.inl (List.mem_cons_self _ _)
              · exact Or.inr h
        · simp only [List.length_cons] at hmeas ⊢
          omega

/-- C1: with the grid length equal to width times height, an in-bounds start
point, target color equal to the grid's color at start and a fill color
different from the target, floodFill recolors exactly the pixels
4-connected-reachable (N/E/S/W steps) from start through target-colored
pixels: reachable pixels read back the fill color and all others are
unchanged.  In particular filling a uniform 3x3 grid from the center turns
all 9 cells to the fill color, and a target-colored cell that is only
diagonally adjacent to the filled region is not recolored. -/
theorem floodFill_reachable_spec (px : List String) (start : Point)
    (target fill : String) (sz : Size)
    (hlen : (px.length : ℤ) = sz.width * sz.height)
    (hstart : inB sz.width sz.height start)
    (hscol : readPx px (getIndex start.x start.y sz.width) = some target)
    (hfill : fill ≠ target) :
    (∀ p : Point, inB sz.width sz.height p →
      ((Reach px target sz.width sz.height start p →
        readPx (floodFill px start target fill sz) (getIndex p.x p.y sz.width) =
          some fill) ∧
       (¬ Reach px target sz.width sz.height start p →
        readPx (floodFill px start target fill sz) (getIndex p.x p.y sz.width) =
          readPx px (getIndex p.x p.y sz.width)))) ∧
    floodFill (List.replicate 9 "a") ⟨1, 1⟩ "a" "b" ⟨3, 3⟩ = List.replicate 9 "b" ∧
    floodFill ["a", "a", "c", "a", "c", "a", "c", "c", "c"] ⟨0, 0⟩ "a" "b" ⟨3, 3⟩ =
      ["b", "b", "c", "b", "c", "a", "c", "c", "c"] := by
  refine ⟨?_, by decide, by decide⟩
  have hnn : 0 ≤ getIndex start.x start.y sz.width := inB_index_nonneg hstart
  have hlt : getIndex start.x start.y sz.width < (px.length : ℤ) := by
    rw [hlen]; exact inB_index_lt hstart
  unfold floodFill
  dsimp only
  rw [if_neg (by omega : ¬ (getIndex start.x start.y sz.width < 0 ∨
      (px.length : ℤ) ≤ getIndex start.x start.y sz.width))]
  rw [if_neg (by
    rw [hscol]
    intro hc
    exact hfill (Option.some.injEq _ _ ▸ hc).symm)]
  rw [if_pos hscol]
  exact ffLoop_reach px target fill sz.width sz.height start hlen
    (4 * px.length + 1) [start] [] px rfl
    (fun q hq => by
      rcases List.mem_cons.mp hq with hq | hq
      · subst hq; exact ⟨hstart, Or.inl rfl⟩
      · cases hq)
    (fun i hi => absurd hi (List.not_mem_nil _))
    List.nodup_nil
    (fun p hp => by
      rw [if_neg]
      intro hc
      exact List.not_mem_nil _ hc.1)
    (Or.inr (List.mem_cons_self _ _))
    (fun a b h1 h2 => absurd h2 (List.not_mem_nil _))
    (by simp)

/-- Witness for C1: filling the uniform 3x3 grid from the center; the
hypotheses are discharged at that concrete input. -/
theorem floodFill_reachable_spec_witness :
    floodFill (List.replicate 9 "a") ⟨1, 1⟩ "a" "b" ⟨3, 3⟩ = List.replicate 9 "b" :=
  (floodFill_reachable_spec (List.replicate 9 "a") ⟨1, 1⟩ "a" "b" ⟨3, 3⟩
    (by decide) (by decide) (by decide) (by decide)).2.1

end PixelBoard
